import Mathlib

/-!
Verification of the dataset-catalog module (`dataset.py`) of the
stt-benchmark repository.

The module normalises three speech-corpus layouts (Common Voice,
LibriSpeech, a custom annotation format) into one catalog of
`(audio_path, transcript)` pairs.  We embed the catalog builders as pure
Lean functions over an explicit model of the relevant filesystem state:
the only filesystem facts the builders consult are `os.path.exists` on
candidate WAV paths (modelled as a predicate `String → Bool`) and the
contents of the metadata files (passed in as data).  Audio conversions
(`sox`/`soundfile` writes) are side effects; we record them as the list of
WAV paths written, in order, and update the existence predicate exactly
where a file was written.
-/

namespace SttBench

/-- Python exception kinds that the module can raise. -/
inductive PyErr where
  | indexError
  | keyError
  | valueError
  | notImplementedError
deriving DecidableEq, Repr

/-- A catalog entry: `(audio_path, transcript)`, as appended to `self._data`. -/
abbrev Entry := String × String

instance {ε α : Type} [DecidableEq ε] [DecidableEq α] : DecidableEq (Except ε α) := fun a b =>
  match a, b with
  | .ok x, .ok y => if h : x = y then isTrue (by rw [h]) else isFalse (by simp [h])
  | .error e, .error f => if h : e = f then isTrue (by rw [h]) else isFalse (by simp [h])
  | .ok _, .error _ => isFalse (by simp)
  | .error _, .ok _ => isFalse (by simp)

/-- Model of `os.path.join(root, name)` for a non-absolute `name` and a root
without a trailing separator, the only way the module uses it. -/
def pathJoin (root name : String) : String := root ++ "/" ++ name

/-- Model of Python `str.lower` (`row['text'].lower()`), character-wise
lower-casing; `Char.toLower` agrees with Python on the ASCII range used here. -/
def pyLower (s : String) : String := ⟨s.data.map Char.toLower⟩

/-- Helper for `pyReplace`: replace every non-overlapping occurrence of `old`
by `new`, scanning left to right, exactly as Python `str.replace` does for a
non-empty `old` (the module never calls it with an empty pattern).  The `fuel`
argument only makes the recursion structural; every replacement step consumes
at least one character, so a call with `fuel` at least the list length never
reaches the fuel-exhausted branch. -/
def replAux (old new : List Char) : Nat → List Char → List Char
  | _, [] => []
  | 0, l => l
  | fuel + 1, c :: rest =>
    if old ≠ [] ∧ old.isPrefixOf (c :: rest) then
      new ++ replAux old new fuel ((c :: rest).drop old.length)
    else
      c :: replAux old new fuel rest

/-- Model of Python `s.replace(old, new)` for non-empty `old`: every
non-overlapping occurrence of `old` in `s` is replaced by `new`. -/
def pyReplace (s old new : String) : String :=
  ⟨replAux old.data new.data s.data.length s.data⟩

/-- Model of Python `s.endswith(suffix)`. -/
def pyEndsWith (s suffix : String) : Bool := suffix.data.isSuffixOf s.data

/-- Helper for `pySplit1`: first-space split of a character list.
Returns `none` when no space occurs. -/
def splitOnce : List Char → Option (List Char × List Char)
  | [] => none
  | c :: rest =>
    if c = ' ' then some ([], rest)
    else (splitOnce rest).map (fun p => (c :: p.1, p.2))

/-- Model of Python `x.split(' ', maxsplit=1)`: a one-element list when `x`
contains no space, otherwise the part before the first space and the rest. -/
def pySplit1 (s : String) : List String :=
  match splitOnce s.data with
  | none => [s]
  | some (a, b) => [⟨a⟩, ⟨b⟩]

/-- Helper for `pyReadlines`: split after each newline, keeping the newline
characters, as Python `file.readlines()` does. -/
def readlinesAux : List Char → List Char → List (List Char)
  | [], acc => if acc = [] then [] else [acc.reverse]
  | c :: rest, acc =>
    if c = '\n' then (acc.reverse ++ ['\n']) :: readlinesAux rest []
    else readlinesAux rest (c :: acc)

/-- Model of Python `f.readlines()` applied to a file whose full content is
`s`: the lines of `s`, each keeping its trailing newline when present. -/
def pyReadlines (s : String) : List String := (readlinesAux s.data []).map (fun l => ⟨l⟩)

/-- Model of Python `dict(pairs)[k]` lookup: the value of the last pair with
key `k` (later pairs overwrite earlier ones), `none` when `k` is absent. -/
def dictGet (d : List (String × String)) (k : String) : Option String :=
  (d.reverse.find? (fun kv => kv.1 == k)).map (fun kv => kv.2)

/-- Model of Python `dict(seq)` construction from a list of split results:
succeeds on two-element lists, raises `ValueError` otherwise (for example on
a transcript line with no space, whose split is a one-element list). -/
def pyDictOfPairs : List (List String) → Except PyErr (List (String × String))
  | [] => .ok []
  | [k, v] :: rest => (pyDictOfPairs rest).map (fun d => (k, v) :: d)
  | _ :: _ => .error .valueError

/-- Filesystem update after writing the file `p`: `os.path.exists` now also
holds at `p`. -/
def fsUpdate (ex : String → Bool) (p : String) : String → Bool :=
  fun q => if q = p then true else ex q

/-- Accumulated state of a builder run: the catalog built so far
(`self._data`), the WAV paths written so far (conversion side effects, in
order), and the current `os.path.exists` predicate. -/
structure BuildAcc where
  entries : List Entry
  convs : List String
  fs : String → Bool

/-- One row of `cv-valid-test.csv`, restricted to the fields the constructor
reads; `up_votes`/`down_votes` hold the results of `int(...)` on the CSV
fields. -/
structure CVRow where
  text : String
  up_votes : Int
  down_votes : Int
  filename : String
deriving DecidableEq, Repr

/-- The rejection test of `CommonVoiceDataset.__init__`
(`if up_votes < 2 or down_votes > 0 or len(text) == 0: continue`), applied
to the lower-cased text. -/
def cvReject (row : CVRow) : Prop :=
  row.up_votes < 2 ∨ 0 < row.down_votes ∨ (pyLower row.text).length = 0

instance (row : CVRow) : Decidable (cvReject row) := by
  unfold cvReject; infer_instance

/-- Boolean acceptance predicate of the Common Voice quality gate: the
negation of the source's rejection test. -/
def cvAccept (row : CVRow) : Bool := !(decide (cvReject row))

/-- The WAV path of an accepted Common Voice row:
`os.path.join(root, row['filename']).replace('.mp3', '.wav')`. -/
def cvWavPath (root : String) (row : CVRow) : String :=
  pyReplace (pathJoin root row.filename) ".mp3" ".wav"

/-- The catalog entry appended for an accepted Common Voice row:
`(wav_path, text)` with `text = row['text'].lower()`. -/
def cvEntry (root : String) (row : CVRow) : Entry :=
  (cvWavPath root row, pyLower row.text)

/-- Body of the row loop of `CommonVoiceDataset.__init__`: lower the text,
apply the quality gate, convert the MP3 when the WAV sibling does not exist,
append `(wav_path, text)`. -/
def cvStep (root : String) (st : BuildAcc) (row : CVRow) : BuildAcc :=
  if cvReject row then st
  else
    let wav_path := cvWavPath root row
    let st1 :=
      if st.fs wav_path then st
      else ⟨st.entries, st.convs ++ [wav_path], fsUpdate st.fs wav_path⟩
    ⟨st1.entries ++ [(wav_path, pyLower row.text)], st1.convs, st1.fs⟩

/-- `CommonVoiceDataset.__init__` over the parsed rows of
`cv-valid-test.csv`, starting from the filesystem state `fs0`. -/
def buildCV (root : String) (rows : List CVRow) (fs0 : String → Bool) : BuildAcc :=
  rows.foldl (cvStep root) ⟨[], [], fs0⟩

/-- One row of `annotations.csv`, restricted to the fields the constructor
reads. -/
structure CustomRow where
  file : String
  text : String
  language : String
deriving DecidableEq, Repr

/-- The acceptance test of `CustomDataset.__init__`
(`if d['text'] and d['language'] == "EN"`); a Python string is truthy
exactly when it is non-empty. -/
def customAccept (d : CustomRow) : Prop :=
  d.text ≠ "" ∧ d.language = "EN"

instance (d : CustomRow) : Decidable (customAccept d) := by
  unfold customAccept; infer_instance

/-- Body of the row loop of `CustomDataset.__init__`: for an accepted row,
convert `root/original/file` into `root/file` when the latter does not
exist, then append `(wav_path, d['text'])` and additionally append the
locally built tuple `row` (the source appends the same pair twice). -/
def customStep (root : String) (st : BuildAcc) (d : CustomRow) : BuildAcc :=
  if customAccept d then
    let row : Entry := (pathJoin root d.file, d.text)
    let wav_path := pathJoin root d.file
    let st1 :=
      if st.fs wav_path then st
      else ⟨st.entries, st.convs ++ [wav_path], fsUpdate st.fs wav_path⟩
    ⟨(st1.entries ++ [(wav_path, d.text)]) ++ [row], st1.convs, st1.fs⟩
  else st

/-- `CustomDataset.__init__` over the parsed rows of `annotations.csv`. -/
def buildCustom (root : String) (rows : List CustomRow) (fs0 : String → Bool) : BuildAcc :=
  rows.foldl (customStep root) ⟨[], [], fs0⟩

/-- One chapter directory of a LibriSpeech tree: its directory name, the
content of its `<speaker>-<chapter>.trans.txt` transcript file, and the
result of `os.listdir` on the chapter directory. -/
structure LSChapter where
  chapter_id : String
  transcriptContent : String
  files : List String
deriving DecidableEq, Repr

/-- One speaker directory of a LibriSpeech tree: its directory name and the
chapter directories it contains, in `os.listdir` order. -/
structure LSSpeaker where
  speaker_id : String
  chapters : List LSChapter
deriving DecidableEq, Repr

/-- The transcript mapping of a chapter:
`dict([tuple(x.split(' ', maxsplit=1)) for x in f.readlines()])`. -/
def chTranscripts (ch : LSChapter) : Except PyErr (List (String × String)) :=
  pyDictOfPairs ((pyReadlines ch.transcriptContent).map pySplit1)

/-- The key looked up for a `.flac` file name `f`:
`wav_file.replace('.wav', '')` where `wav_file = f.replace('.flac', '.wav')`. -/
def flacKey (f : String) : String :=
  pyReplace (pyReplace f ".flac" ".wav") ".wav" ""

/-- The inner file loop of `LibriSpeechDataset.__init__` over
`os.listdir(chapter_dir)`: for each `.flac` file, convert it to its WAV
sibling when absent, then append `(wav_path, transcripts[...])`; a missing
transcript key raises `KeyError`. -/
def lsFiles (chapterDir : String) (transcripts : List (String × String)) :
    List String → BuildAcc → Except PyErr BuildAcc
  | [], st => .ok st
  | flacFile :: rest, st =>
    if pyEndsWith flacFile ".flac" then
      let wav_file := pyReplace flacFile ".flac" ".wav"
      let wav_path := pathJoin chapterDir wav_file
      let st1 :=
        if st.fs wav_path then st
        else ⟨st.entries, st.convs ++ [wav_path], fsUpdate st.fs wav_path⟩
      match dictGet transcripts (pyReplace wav_file ".wav" "") with
      | none => .error .keyError
      | some t =>
        lsFiles chapterDir transcripts rest ⟨st1.entries ++ [(wav_path, t)], st1.convs, st1.fs⟩
    else lsFiles chapterDir transcripts rest st

/-- One chapter of `LibriSpeechDataset.__init__`: parse the transcript file
into a dict, then run the file loop over the chapter directory listing. -/
def lsChapter (root speakerId : String) (ch : LSChapter) (st : BuildAcc) :
    Except PyErr BuildAcc :=
  let chapterDir := pathJoin (pathJoin root speakerId) ch.chapter_id
  match chTranscripts ch with
  | .error e => .error e
  | .ok transcripts => lsFiles chapterDir transcripts ch.files st

/-- The chapter loop of `LibriSpeechDataset.__init__` over
`os.listdir(speaker_dir)`. -/
def lsChapters (root speakerId : String) : List LSChapter → BuildAcc → Except PyErr BuildAcc
  | [], st => .ok st
  | ch :: rest, st =>
    match lsChapter root speakerId ch st with
    | .error e => .error e
    | .ok st1 => lsChapters root speakerId rest st1

/-- The speaker loop of `LibriSpeechDataset.__init__` over `os.listdir(root)`. -/
def lsSpeakers (root : String) : List LSSpeaker → BuildAcc → Except PyErr BuildAcc
  | [], st => .ok st
  | sp :: rest, st =>
    match lsChapters root sp.speaker_id sp.chapters st with
    | .error e => .error e
    | .ok st1 => lsSpeakers root rest st1

/-- `LibriSpeechDataset.__init__` over a root whose `os.listdir` tree is
given by `sps`, starting from the filesystem state `fs0`. -/
def buildLS (root : String) (sps : List LSSpeaker) (fs0 : String → Bool) :
    Except PyErr BuildAcc :=
  lsSpeakers root sps ⟨[], [], fs0⟩

/-- Model of the Python list indexing `self._data[index]` shared by the
three `get` implementations: a non-negative index below the length selects
that position, a negative index not below `-len` selects from the end, and
anything else raises `IndexError`. -/
def pyIndex (l : List Entry) (i : Int) : Except PyErr Entry :=
  if h : 0 ≤ i ∧ i < (l.length : Int) then
    .ok (l.get ⟨i.toNat, by omega⟩)
  else if h2 : -(l.length : Int) ≤ i ∧ i < 0 then
    .ok (l.get ⟨(i + (l.length : Int)).toNat, by omega⟩)
  else
    .error .indexError

/-- The three concrete dataset classes. -/
inductive DKind where
  | commonvoice
  | librispeech
  | custom
deriving DecidableEq, Repr

/-- A constructed dataset object: its class and its populated catalog
`self._data`. -/
structure DS where
  kind : DKind
  data : List Entry
deriving DecidableEq

/-- The `__str__` label of each concrete class. -/
def dsLabel : DKind → String
  | .commonvoice => "Common Voice Dataset"
  | .librispeech => "LibriSpeech Dataset"
  | .custom => "Custom Dataset"

/-- Factory `Dataset.create(dataset_type, root)`: the chain of equality
tests on `dataset_type` selecting the class to construct, raising
`ValueError("cannot create %s of type '%s'" % (cls.__name__, dataset_type))`
for an unrecognized type (`cls.__name__` is `Dataset` here). -/
def create (dataset_type : String) : Except String DKind :=
  if dataset_type = "commonvoice" then .ok .commonvoice
  else if dataset_type = "librispeech" then .ok .librispeech
  else if dataset_type = "custom" then .ok .custom
  else .error ("cannot create Dataset of type \x27" ++ dataset_type ++ "\x27")

/-- Method `size`: `return len(self._data)`.  The method reads the catalog
and leaves the object unchanged, so the embedding returns the value paired
with the unmodified object. -/
def DS.size (d : DS) : Nat × DS := (d.data.length, d)

/-- Method `get`: `return self._data[index]`, leaving the object unchanged. -/
def DS.get (d : DS) (i : Int) : Except PyErr Entry × DS := (pyIndex d.data i, d)

/-- Method `__str__`, leaving the object unchanged. -/
def DS.str (d : DS) : String × DS := (dsLabel d.kind, d)

/-- Method `size_seconds`: sums `soundfile.read(self.get(i)[0])[0].size / 16000`
over `i in range(self.size())`.  The sample count of each audio file is the
oracle `samples`; Python float division is modelled over `ℚ`.  The method
only reads, so the object is returned unchanged. -/
def DS.sizeSeconds (samples : String → Nat) (d : DS) : ℚ × DS :=
  (((List.range d.data.length).map
      (fun i => ((samples (d.data.getD i ("", "")).1 : ℚ) / 16000))).sum, d)

/-- Method `size_hours`: as `size_seconds` but dividing by `16000 * 3600`. -/
def DS.sizeHours (samples : String → Nat) (d : DS) : ℚ × DS :=
  (((List.range d.data.length).map
      (fun i => ((samples (d.data.getD i ("", "")).1 : ℚ) / (16000 * 3600)))).sum, d)

/-- Method `all_data`: the base class raises `NotImplementedError`; only
`CustomDataset` overrides it, returning `self._data`. -/
def DS.allData (d : DS) : Except PyErr (List Entry) :=
  match d.kind with
  | .custom => .ok d.data
  | _ => .error .notImplementedError

/-- The read-only accessor calls a consumer can make on a dataset object
after construction. -/
inductive AccessorOp where
  | size
  | get (i : Int)
  | sizeSeconds
  | sizeHours
  | str
  | allData
deriving DecidableEq, Repr

/-- The object resulting from one accessor call: each method only reads, so
it is the second component of the embedded method. -/
def applyOp (samples : String → Nat) (d : DS) : AccessorOp → DS
  | .size => (DS.size d).2
  | .get i => (DS.get d i).2
  | .sizeSeconds => (DS.sizeSeconds samples d).2
  | .sizeHours => (DS.sizeHours samples d).2
  | .str => (DS.str d).2
  | .allData => d

/-- The object resulting from a sequence of accessor calls. -/
def runOps (samples : String → Nat) (ops : List AccessorOp) (d : DS) : DS :=
  ops.foldl (applyOp samples) d

/-- The two identical entries the Custom builder appends for each accepted
row, in row order. -/
def customDelta (root : String) : List CustomRow → List Entry
  | [] => []
  | d :: rest =>
    if customAccept d then
      (pathJoin root d.file, d.text) :: (pathJoin root d.file, d.text) :: customDelta root rest
    else customDelta root rest

theorem cvAccept_iff (r : CVRow) : cvAccept r = true ↔ ¬ cvReject r := by
  simp [cvAccept]

theorem fsUpdate_mono (fs : String → Bool) (w p : String) (h : fs p = true) :
    fsUpdate fs w p = true := by
  unfold fsUpdate
  split <;> simp [h]

theorem cv_foldl_entries (root : String) (rows : List CVRow) : ∀ st : BuildAcc,
    (rows.foldl (cvStep root) st).entries =
      st.entries ++ (rows.filter cvAccept).map (cvEntry root) := by
  induction rows with
  | nil => intro st; simp
  | cons r rs ih =>
    intro st
    by_cases hr : cvReject r
    · have ha : cvAccept r = false := by simp [cvAccept, hr]
      simp [cvStep, hr, ha, ih]
    · have ha : cvAccept r = true := by simp [cvAccept, hr]
      by_cases hfs : st.fs (cvWavPath root r) <;>
        simp [cvStep, hr, ha, hfs, ih, cvEntry]

theorem cv_foldl_mono (root : String) (rows : List CVRow) : ∀ (st : BuildAcc) (p : String),
    st.fs p = true → (rows.foldl (cvStep root) st).fs p = true := by
  induction rows with
  | nil => intro st p h; simpa using h
  | cons r rs ih =>
    intro st p h
    by_cases hr : cvReject r
    · simp only [List.foldl_cons]
      rw [show cvStep root st r = st by simp [cvStep, hr]]
      exact ih st p h
    · by_cases hfs : st.fs (cvWavPath root r)
      · simp only [List.foldl_cons]
        exact ih _ p (by simp [cvStep, hr, hfs, h])
      · simp only [List.foldl_cons]
        exact ih _ p (by simp [cvStep, hr, hfs, fsUpdate_mono, h])

theorem cv_foldl_post (root : String) (rows : List CVRow) : ∀ (st : BuildAcc) (r : CVRow),
    r ∈ rows → ¬ cvReject r →
    (rows.foldl (cvStep root) st).fs (cvWavPath root r) = true := by
  induction rows with
  | nil => intro st r h; simp at h
  | cons r0 rs ih =>
    intro st r hmem hr
    rcases List.mem_cons.mp hmem with heq | htail
    · subst heq
      simp only [List.foldl_cons]
      apply cv_foldl_mono
      by_cases hfs : st.fs (cvWavPath root r)
      · simp [cvStep, hr, hfs]
      · simp [cvStep, hr, hfs, fsUpdate]
    · simp only [List.foldl_cons]
      exact ih _ r htail hr

theorem cv_foldl_stable (root : String) (rows : List CVRow) :
    ∀ (es : List Entry) (cs : List String) (fs : String → Bool),
    (∀ r ∈ rows, ¬ cvReject r → fs (cvWavPath root r) = true) →
    rows.foldl (cvStep root) ⟨es, cs, fs⟩ =
      ⟨es ++ (rows.filter cvAccept).map (cvEntry root), cs, fs⟩ := by
  induction rows with
  | nil => intro es cs fs _; simp
  | cons r rs ih =>
    intro es cs fs h
    by_cases hr : cvReject r
    · have ha : cvAccept r = false := by simp [cvAccept, hr]
      simp only [List.foldl_cons]
      rw [show cvStep root ⟨es, cs, fs⟩ r = ⟨es, cs, fs⟩ by simp [cvStep, hr]]
      rw [ih es cs fs (fun r hm => h r (List.mem_cons_of_mem _ hm))]
      simp [ha]
    · have ha : cvAccept r = true := by simp [cvAccept, hr]
      have hfs : fs (cvWavPath root r) = true := h r (List.mem_cons_self r rs) hr
      simp only [List.foldl_cons]
      rw [show cvStep root ⟨es, cs, fs⟩ r =
            ⟨es ++ [cvEntry root r], cs, fs⟩ by simp [cvStep, hr, hfs, cvEntry]]
      rw [ih _ cs fs (fun r hm => h r (List.mem_cons_of_mem _ hm))]
      simp [ha, cvEntry]

theorem custom_foldl_entries (root : String) (rows : List CustomRow) : ∀ st : BuildAcc,
    (rows.foldl (customStep root) st).entries = st.entries ++ customDelta root rows := by
  induction rows with
  | nil => intro st; simp [customDelta]
  | cons d rs ih =>
    intro st
    by_cases hd : customAccept d
    · by_cases hfs : st.fs (pathJoin root d.file) <;>
        simp [customStep, customDelta, hd, hfs, ih]
    · simp [customStep, customDelta, hd, ih]

theorem custom_foldl_mono (root : String) (rows : List CustomRow) :
    ∀ (st : BuildAcc) (p : String),
    st.fs p = true → (rows.foldl (customStep root) st).fs p = true := by
  induction rows with
  | nil => intro st p h; simpa using h
  | cons d rs ih =>
    intro st p h
    by_cases hd : customAccept d
    · by_cases hfs : st.fs (pathJoin root d.file)
      · simp only [List.foldl_cons]
        exact ih _ p (by simp [customStep, hd, hfs, h])
      · simp only [List.foldl_cons]
        exact ih _ p (by simp [customStep, hd, hfs, fsUpdate_mono, h])
    · simp only [List.foldl_cons]
      rw [show customStep root st d = st by simp [customStep, hd]]
      exact ih st p h

theorem custom_foldl_post (root : String) (rows : List CustomRow) :
    ∀ (st : BuildAcc) (d : CustomRow),
    d ∈ rows → customAccept d →
    (rows.foldl (customStep root) st).fs (pathJoin root d.file) = true := by
  induction rows with
  | nil => intro st d h; simp at h
  | cons d0 rs ih =>
    intro st d hmem hd
    rcases List.mem_cons.mp hmem with heq | htail
    · subst heq
      simp only [List.foldl_cons]
      apply custom_foldl_mono
      by_cases hfs : st.fs (pathJoin root d.file)
      · simp [customStep, hd, hfs]
      · simp [customStep, hd, hfs, fsUpdate]
    · simp only [List.foldl_cons]
      exact ih _ d htail hd

theorem custom_foldl_stable (root : String) (rows : List CustomRow) :
    ∀ (es : List Entry) (cs : List String) (fs : String → Bool),
    (∀ d ∈ rows, customAccept d → fs (pathJoin root d.file) = true) →
    rows.foldl (customStep root) ⟨es, cs, fs⟩ =
      ⟨es ++ customDelta root rows, cs, fs⟩ := by
  induction rows with
  | nil => intro es cs fs _; simp [customDelta]
  | cons d rs ih =>
    intro es cs fs h
    by_cases hd : customAccept d
    · have hfs : fs (pathJoin root d.file) = true := h d (List.mem_cons_self d rs) hd
      simp only [List.foldl_cons]
      rw [show customStep root ⟨es, cs, fs⟩ d =
            ⟨es ++ [(pathJoin root d.file, d.text), (pathJoin root d.file, d.text)], cs, fs⟩ by
          simp [customStep, hd, hfs]]
      rw [ih _ cs fs (fun d hm => h d (List.mem_cons_of_mem _ hm))]
      simp [customDelta, hd]
    · simp only [List.foldl_cons]
      rw [show customStep root ⟨es, cs, fs⟩ d = ⟨es, cs, fs⟩ by simp [customStep, hd]]
      rw [ih es cs fs (fun d hm => h d (List.mem_cons_of_mem _ hm))]
      simp [customDelta, hd]

/-- The catalog entries the LibriSpeech file loop appends for the listing
`files` of one chapter directory, in listing order: one `(wav_path,
transcript)` pair per `.flac` file whose key is present (absent keys abort
the run, so the skip branch is never reached on a successful run). -/
def lsDelta (chapterDir : String) (transcripts : List (String × String)) :
    List String → List Entry
  | [] => []
  | f :: rest =>
    if pyEndsWith f ".flac" then
      match dictGet transcripts (pyReplace (pyReplace f ".flac" ".wav") ".wav" "") with
      | none => lsDelta chapterDir transcripts rest
      | some t =>
        (pathJoin chapterDir (pyReplace f ".flac" ".wav"), t) ::
          lsDelta chapterDir transcripts rest
    else lsDelta chapterDir transcripts rest

theorem lsFiles_ok_char (dir : String) (tr : List (String × String)) (files : List String) :
    ∀ st st' : BuildAcc, lsFiles dir tr files st = .ok st' →
    st'.entries = st.entries ++ lsDelta dir tr files ∧
    (∀ p, st.fs p = true → st'.fs p = true) ∧
    (∀ f ∈ files, pyEndsWith f ".flac" = true →
      st'.fs (pathJoin dir (pyReplace f ".flac" ".wav")) = true) ∧
    (∀ f ∈ files, pyEndsWith f ".flac" = true →
      (dictGet tr (flacKey f)).isSome = true) := by
  induction files with
  | nil =>
    intro st st' h
    simp only [lsFiles] at h
    cases h
    simp [lsDelta]
  | cons f rest ih =>
    intro st st' h
    by_cases hflac : pyEndsWith f ".flac" = true
    · rw [show lsFiles dir tr (f :: rest) st =
          (let wav_file := pyReplace f ".flac" ".wav"
           let wav_path := pathJoin dir wav_file
           let st1 := if st.fs wav_path then st
             else ⟨st.entries, st.convs ++ [wav_path], fsUpdate st.fs wav_path⟩
           match dictGet tr (pyReplace wav_file ".wav" "") with
           | none => .error .keyError
           | some t =>
             lsFiles dir tr rest ⟨st1.entries ++ [(wav_path, t)], st1.convs, st1.fs⟩) by
         simp [lsFiles, hflac]] at h
      simp only [] at h
      cases hkey : dictGet tr (pyReplace (pyReplace f ".flac" ".wav") ".wav" "") with
      | none => rw [hkey] at h; cases h
      | some t =>
        rw [hkey] at h
        by_cases hfs : st.fs (pathJoin dir (pyReplace f ".flac" ".wav")) = true
        · rw [if_pos hfs] at h
          obtain ⟨h1, h2, h3, h4⟩ := ih _ _ h
          refine ⟨?_, ?_, ?_, ?_⟩
          · simp only [h1, lsDelta, hflac, if_pos]
            rw [hkey]
            simp
          · intro p hp
            exact h2 p (by simpa using hp)
          · intro g hg hgf
            rcases List.mem_cons.mp hg with rfl | hgr
            · exact h2 _ (by simpa using hfs)
            · exact h3 g hgr hgf
          · intro g hg hgf
            rcases List.mem_cons.mp hg with rfl | hgr
            · simp [flacKey, hkey]
            · exact h4 g hgr hgf
        · rw [if_neg hfs] at h
          obtain ⟨h1, h2, h3, h4⟩ := ih _ _ h
          refine ⟨?_, ?_, ?_, ?_⟩
          · simp only [h1, lsDelta, hflac, if_pos]
            rw [hkey]
            simp
          · intro p hp
            exact h2 p (by simp [fsUpdate_mono, hp])
          · intro g hg hgf
            rcases List.mem_cons.mp hg with rfl | hgr
            · exact h2 _ (by simp [fsUpdate])
            · exact h3 g hgr hgf
          · intro g hg hgf
            rcases List.mem_cons.mp hg with rfl | hgr
            · simp [flacKey, hkey]
            · exact h4 g hgr hgf
    · rw [show lsFiles dir tr (f :: rest) st = lsFiles dir tr rest st by
          simp [lsFiles, hflac]] at h
      obtain ⟨h1, h2, h3, h4⟩ := ih _ _ h
      refine ⟨?_, h2, ?_, ?_⟩
      · simp [h1, lsDelta, hflac]
      · intro g hg hgf
        rcases List.mem_cons.mp hg with rfl | hgr
        · exact absurd hgf hflac
        · exact h3 g hgr hgf
      · intro g hg hgf
        rcases List.mem_cons.mp hg with rfl | hgr
        · exact absurd hgf hflac
        · exact h4 g hgr hgf

theorem lsFiles_stable (dir : String) (tr : List (String × String)) (files : List String) :
    ∀ (es : List Entry) (cs : List String) (fs : String → Bool),
    (∀ f ∈ files, pyEndsWith f ".flac" = true →
      fs (pathJoin dir (pyReplace f ".flac" ".wav")) = true) →
    (∀ f ∈ files, pyEndsWith f ".flac" = true →
      (dictGet tr (flacKey f)).isSome = true) →
    lsFiles dir tr files ⟨es, cs, fs⟩ = .ok ⟨es ++ lsDelta dir tr files, cs, fs⟩ := by
  induction files with
  | nil => intro es cs fs _ _; simp [lsFiles, lsDelta]
  | cons f rest ih =>
    intro es cs fs hfs hkeys
    by_cases hflac : pyEndsWith f ".flac" = true
    · have hf : fs (pathJoin dir (pyReplace f ".flac" ".wav")) = true :=
        hfs f (List.mem_cons_self f rest) hflac
      have hk : (dictGet tr (flacKey f)).isSome = true :=
        hkeys f (List.mem_cons_self f rest) hflac
      cases hkey : dictGet tr (pyReplace (pyReplace f ".flac" ".wav") ".wav" "") with
      | none => rw [show flacKey f =
          pyReplace (pyReplace f ".flac" ".wav") ".wav" "" from rfl, hkey] at hk; cases hk
      | some t =>
        rw [show lsFiles dir tr (f :: rest) ⟨es, cs, fs⟩ =
              lsFiles dir tr rest
                ⟨es ++ [(pathJoin dir (pyReplace f ".flac" ".wav"), t)], cs, fs⟩ by
            simp [lsFiles, hflac, hf, hkey]]
        rw [ih _ cs fs (fun g hg => hfs g (List.mem_cons_of_mem _ hg))
              (fun g hg => hkeys g (List.mem_cons_of_mem _ hg))]
        simp [lsDelta, hflac, hkey]
    · rw [show lsFiles dir tr (f :: rest) ⟨es, cs, fs⟩ =
            lsFiles dir tr rest ⟨es, cs, fs⟩ by simp [lsFiles, hflac]]
      rw [ih es cs fs (fun g hg => hfs g (List.mem_cons_of_mem _ hg))
            (fun g hg => hkeys g (List.mem_cons_of_mem _ hg))]
      simp [lsDelta, hflac]

theorem lsFiles_ok_exists (dir : String) (tr : List (String × String)) (files : List String) :
    ∀ st : BuildAcc,
    (∀ f ∈ files, pyEndsWith f ".flac" = true →
      (dictGet tr (flacKey f)).isSome = true) →
    ∃ st', lsFiles dir tr files st = .ok st' := by
  induction files with
  | nil => intro st _; exact ⟨st, by simp [lsFiles]⟩
  | cons f rest ih =>
    intro st hkeys
    by_cases hflac : pyEndsWith f ".flac" = true
    · have hk : (dictGet tr (flacKey f)).isSome = true :=
        hkeys f (List.mem_cons_self f rest) hflac
      cases hkey : dictGet tr (pyReplace (pyReplace f ".flac" ".wav") ".wav" "") with
      | none => rw [show flacKey f =
          pyReplace (pyReplace f ".flac" ".wav") ".wav" "" from rfl, hkey] at hk; cases hk
      | some t =>
        by_cases hfs : st.fs (pathJoin dir (pyReplace f ".flac" ".wav")) = true
        · obtain ⟨st', hst'⟩ := ih ⟨st.entries ++ [(pathJoin dir (pyReplace f ".flac" ".wav"), t)],
            st.convs, st.fs⟩ (fun g hg => hkeys g (List.mem_cons_of_mem _ hg))
          exact ⟨st', by simp [lsFiles, hflac, hfs, hkey, hst']⟩
        · obtain ⟨st', hst'⟩ := ih ⟨st.entries ++ [(pathJoin dir (pyReplace f ".flac" ".wav"), t)],
            st.convs ++ [pathJoin dir (pyReplace f ".flac" ".wav")],
            fsUpdate st.fs (pathJoin dir (pyReplace f ".flac" ".wav"))⟩
            (fun g hg => hkeys g (List.mem_cons_of_mem _ hg))
          exact ⟨st', by simp [lsFiles, hflac, hfs, hkey, hst']⟩
    · obtain ⟨st', hst'⟩ := ih st (fun g hg => hkeys g (List.mem_cons_of_mem _ hg))
      exact ⟨st', by simp [lsFiles, hflac, hst']⟩

theorem lsFiles_missing (dir : String) (tr : List (String × String)) (files : List String) :
    ∀ st : BuildAcc,
    (∃ f ∈ files, pyEndsWith f ".flac" = true ∧ dictGet tr (flacKey f) = none) →
    lsFiles dir tr files st = .error .keyError := by
  induction files with
  | nil => intro st h; simp at h
  | cons f rest ih =>
    intro st h
    by_cases hflac : pyEndsWith f ".flac" = true
    · cases hkey : dictGet tr (pyReplace (pyReplace f ".flac" ".wav") ".wav" "") with
      | none => simp [lsFiles, hflac, hkey]
      | some t =>
        obtain ⟨g, hg, hgf, hgnone⟩ := h
        rcases List.mem_cons.mp hg with rfl | hgr
        · rw [show flacKey g =
            pyReplace (pyReplace g ".flac" ".wav") ".wav" "" from rfl, hkey] at hgnone
          cases hgnone
        · by_cases hfs : st.fs (pathJoin dir (pyReplace f ".flac" ".wav")) = true
          · rw [show lsFiles dir tr (f :: rest) st =
                lsFiles dir tr rest
                  ⟨st.entries ++ [(pathJoin dir (pyReplace f ".flac" ".wav"), t)],
                   st.convs, st.fs⟩ by simp [lsFiles, hflac, hfs, hkey]]
            exact ih _ ⟨g, hgr, hgf, hgnone⟩
          · rw [show lsFiles dir tr (f :: rest) st =
                lsFiles dir tr rest
                  ⟨st.entries ++ [(pathJoin dir (pyReplace f ".flac" ".wav"), t)],
                   st.convs ++ [pathJoin dir (pyReplace f ".flac" ".wav")],
                   fsUpdate st.fs (pathJoin dir (pyReplace f ".flac" ".wav"))⟩ by
              simp [lsFiles, hflac, hfs, hkey]]
            exact ih _ ⟨g, hgr, hgf, hgnone⟩
    · obtain ⟨g, hg, hgf, hgnone⟩ := h
      rcases List.mem_cons.mp hg with rfl | hgr
      · exact absurd hgf hflac
      · rw [show lsFiles dir tr (f :: rest) st = lsFiles dir tr rest st by
            simp [lsFiles, hflac]]
        exact ih _ ⟨g, hgr, hgf, hgnone⟩

theorem lsDelta_length (dir : String) (tr : List (String × String)) (files : List String) :
    (∀ f ∈ files, pyEndsWith f ".flac" = true →
      (dictGet tr (flacKey f)).isSome = true) →
    (lsDelta dir tr files).length =
      (files.filter (fun f => pyEndsWith f ".flac")).length := by
  induction files with
  | nil => intro _; simp [lsDelta]
  | cons f rest ih =>
    intro hkeys
    by_cases hflac : pyEndsWith f ".flac" = true
    · have hk : (dictGet tr (flacKey f)).isSome = true :=
        hkeys f (List.mem_cons_self f rest) hflac
      cases hkey : dictGet tr (pyReplace (pyReplace f ".flac" ".wav") ".wav" "") with
      | none => rw [show flacKey f =
          pyReplace (pyReplace f ".flac" ".wav") ".wav" "" from rfl, hkey] at hk; cases hk
      | some t =>
        simp only [lsDelta, hflac, if_pos]
        rw [hkey]
        simp only [List.length_cons, List.filter_cons, hflac, if_pos]
        rw [ih (fun g hg => hkeys g (List.mem_cons_of_mem _ hg))]
    · simp only [lsDelta, hflac]
      simp only [List.filter_cons, hflac]
      exact ih (fun g hg => hkeys g (List.mem_cons_of_mem _ hg))

/-- The transcript file of the chapter parses into a dict (no `ValueError`). -/
def chDictOk (ch : LSChapter) : Prop := ∃ tr, chTranscripts ch = .ok tr

/-- Every `.flac` file of the chapter listing has its base name as a key of
the chapter's transcript mapping. -/
def chKeysOk (ch : LSChapter) : Prop :=
  ∀ tr, chTranscripts ch = .ok tr →
    ∀ f ∈ ch.files, pyEndsWith f ".flac" = true → (dictGet tr (flacKey f)).isSome = true

/-- Some `.flac` file of the chapter listing has a base name that is not a
key of the chapter's transcript mapping. -/
def chMissing (ch : LSChapter) : Prop :=
  ∃ tr, chTranscripts ch = .ok tr ∧
    ∃ f ∈ ch.files, pyEndsWith f ".flac" = true ∧ dictGet tr (flacKey f) = none

/-- Number of `.flac` files in the chapter listing. -/
def chFlacCount (ch : LSChapter) : Nat :=
  (ch.files.filter (fun f => pyEndsWith f ".flac")).length

/-- The catalog entries contributed by one chapter. -/
def chDelta (root speakerId : String) (ch : LSChapter) : List Entry :=
  match chTranscripts ch with
  | .error _ => []
  | .ok tr => lsDelta (pathJoin (pathJoin root speakerId) ch.chapter_id) tr ch.files

/-- The catalog entries contributed by a list of chapters, in order. -/
def chsDelta (root speakerId : String) : List LSChapter → List Entry
  | [] => []
  | ch :: rest => chDelta root speakerId ch ++ chsDelta root speakerId rest

/-- All WAV sibling targets of the chapters already exist in `fs`. -/
def chsTargetsOk (root speakerId : String) (chs : List LSChapter) (fs : String → Bool) : Prop :=
  ∀ ch ∈ chs, ∀ f ∈ ch.files, pyEndsWith f ".flac" = true →
    fs (pathJoin (pathJoin (pathJoin root speakerId) ch.chapter_id)
        (pyReplace f ".flac" ".wav")) = true

theorem lsChapters_ok_char (root spid : String) (chs : List LSChapter) :
    ∀ st st' : BuildAcc, lsChapters root spid chs st = .ok st' →
    st'.entries = st.entries ++ chsDelta root spid chs ∧
    (∀ p, st.fs p = true → st'.fs p = true) ∧
    chsTargetsOk root spid chs st'.fs ∧
    (∀ ch ∈ chs, chDictOk ch ∧ chKeysOk ch) := by
  induction chs with
  | nil =>
    intro st st' h
    simp only [lsChapters] at h
    cases h
    simp [chsDelta, chsTargetsOk]
  | cons ch rest ih =>
    intro st st' h
    simp only [lsChapters, lsChapter] at h
    cases hct : chTranscripts ch with
    | error e => rw [hct] at h; cases h
    | ok tr =>
      rw [hct] at h
      simp only [] at h
      cases hfl : lsFiles (pathJoin (pathJoin root spid) ch.chapter_id) tr ch.files st with
      | error e => rw [hfl] at h; cases h
      | ok st1 =>
        rw [hfl] at h
        obtain ⟨f1, f2, f3, f4⟩ :=
          lsFiles_ok_char (pathJoin (pathJoin root spid) ch.chapter_id) tr ch.files st st1 hfl
        obtain ⟨g1, g2, g3, g4⟩ := ih st1 st' h
        refine ⟨?_, ?_, ?_, ?_⟩
        · rw [g1, f1]
          simp [chsDelta, chDelta, hct]
        · intro p hp
          exact g2 p (f2 p hp)
        · intro c hc f hf hflac
          rcases List.mem_cons.mp hc with rfl | hcr
          · exact g2 _ (f3 f hf hflac)
          · exact g3 c hcr f hf hflac
        · intro c hc
          rcases List.mem_cons.mp hc with rfl | hcr
          · refine ⟨⟨tr, hct⟩, ?_⟩
            intro tr' htr' f hf hflac
            rw [hct] at htr'
            cases htr'
            exact f4 f hf hflac
          · exact g4 c hcr

theorem lsChapters_stable (root spid : String) (chs : List LSChapter) :
    ∀ (es : List Entry) (cs : List String) (fs : String → Bool),
    (∀ ch ∈ chs, chDictOk ch ∧ chKeysOk ch) →
    chsTargetsOk root spid chs fs →
    lsChapters root spid chs ⟨es, cs, fs⟩ = .ok ⟨es ++ chsDelta root spid chs, cs, fs⟩ := by
  induction chs with
  | nil => intro es cs fs _ _; simp [lsChapters, chsDelta]
  | cons ch rest ih =>
    intro es cs fs hok htg
    obtain ⟨⟨tr, hct⟩, hkeys⟩ := hok ch (List.mem_cons_self ch rest)
    have hstable := lsFiles_stable (pathJoin (pathJoin root spid) ch.chapter_id) tr ch.files
      es cs fs (fun f hf hflac => htg ch (List.mem_cons_self ch rest) f hf hflac)
      (hkeys tr hct)
    rw [show lsChapters root spid (ch :: rest) ⟨es, cs, fs⟩ =
          lsChapters root spid rest
            ⟨es ++ lsDelta (pathJoin (pathJoin root spid) ch.chapter_id) tr ch.files, cs, fs⟩ by
        simp [lsChapters, lsChapter, hct, hstable]]
    rw [ih _ cs fs (fun c hc => hok c (List.mem_cons_of_mem _ hc))
          (fun c hc => htg c (List.mem_cons_of_mem _ hc))]
    simp [chsDelta, chDelta, hct]

theorem lsChapters_ok_exists (root spid : String) (chs : List LSChapter) :
    ∀ st : BuildAcc,
    (∀ ch ∈ chs, chDictOk ch ∧ chKeysOk ch) →
    ∃ st', lsChapters root spid chs st = .ok st' := by
  induction chs with
  | nil => intro st _; exact ⟨st, by simp [lsChapters]⟩
  | cons ch rest ih =>
    intro st hok
    obtain ⟨⟨tr, hct⟩, hkeys⟩ := hok ch (List.mem_cons_self ch rest)
    obtain ⟨st1, hst1⟩ := lsFiles_ok_exists (pathJoin (pathJoin root spid) ch.chapter_id)
      tr ch.files st (hkeys tr hct)
    obtain ⟨st', hst'⟩ := ih st1 (fun c hc => hok c (List.mem_cons_of_mem _ hc))
    exact ⟨st', by simp [lsChapters, lsChapter, hct, hst1, hst']⟩

theorem lsChapters_missing (root spid : String) (chs : List LSChapter) :
    ∀ st : BuildAcc,
    (∀ ch ∈ chs, chDictOk ch) →
    (∃ ch ∈ chs, chMissing ch) →
    lsChapters root spid chs st = .error .keyError := by
  induction chs with
  | nil => intro st _ h; simp at h
  | cons ch rest ih =>
    intro st hdict hmiss
    obtain ⟨tr, hct⟩ := hdict ch (List.mem_cons_self ch rest)
    by_cases hm : ∃ f ∈ ch.files, pyEndsWith f ".flac" = true ∧ dictGet tr (flacKey f) = none
    · have herr := lsFiles_missing (pathJoin (pathJoin root spid) ch.chapter_id)
        tr ch.files st hm
      simp [lsChapters, lsChapter, hct, herr]
    · have hkeys : ∀ f ∈ ch.files, pyEndsWith f ".flac" = true →
          (dictGet tr (flacKey f)).isSome = true := by
        intro f hf hflac
        cases hkey : dictGet tr (flacKey f) with
        | none => exact absurd ⟨f, hf, hflac, hkey⟩ hm
        | some t => rfl
      obtain ⟨st1, hst1⟩ := lsFiles_ok_exists (pathJoin (pathJoin root spid) ch.chapter_id)
        tr ch.files st hkeys
      obtain ⟨c, hc, hcm⟩ := hmiss
      rcases List.mem_cons.mp hc with rfl | hcr
      · obtain ⟨tr', htr', f, hf, hflac, hnone⟩ := hcm
        rw [hct] at htr'
        cases htr'
        exact absurd ⟨f, hf, hflac, hnone⟩ hm
      · rw [show lsChapters root spid (ch :: rest) st = lsChapters root spid rest st1 from ?_]
        · exact ih st1 (fun c hc => hdict c (List.mem_cons_of_mem _ hc)) ⟨c, hcr, hcm⟩
        · simp [lsChapters, lsChapter, hct, hst1]

theorem chsDelta_length (root spid : String) (chs : List LSChapter) :
    (∀ ch ∈ chs, chDictOk ch ∧ chKeysOk ch) →
    (chsDelta root spid chs).length = (chs.map chFlacCount).sum := by
  induction chs with
  | nil => intro _; simp [chsDelta]
  | cons ch rest ih =>
    intro hok
    obtain ⟨⟨tr, hct⟩, hkeys⟩ := hok ch (List.mem_cons_self ch rest)
    simp only [chsDelta, List.length_append, List.map_cons, List.sum_cons]
    rw [show chDelta root spid ch =
          lsDelta (pathJoin (pathJoin root spid) ch.chapter_id) tr ch.files by
        simp [chDelta, hct]]
    rw [lsDelta_length _ tr ch.files (hkeys tr hct)]
    rw [ih (fun c hc => hok c (List.mem_cons_of_mem _ hc))]
    rfl

/-- The catalog entries contributed by a list of speakers, in order. -/
def spsDelta (root : String) : List LSSpeaker → List Entry
  | [] => []
  | sp :: rest => chsDelta root sp.speaker_id sp.chapters ++ spsDelta root rest

/-- Total number of `.flac` files under the whole tree. -/
def spsFlacCount (sps : List LSSpeaker) : Nat :=
  (sps.map (fun sp => (sp.chapters.map chFlacCount).sum)).sum

/-- All WAV sibling targets of the whole tree already exist in `fs`. -/
def spsTargetsOk (root : String) (sps : List LSSpeaker) (fs : String → Bool) : Prop :=
  ∀ sp ∈ sps, chsTargetsOk root sp.speaker_id sp.chapters fs

/-- Every chapter of the tree has a parsable transcript file all of whose
`.flac` base names are keys. -/
def spsOk (sps : List LSSpeaker) : Prop :=
  ∀ sp ∈ sps, ∀ ch ∈ sp.chapters, chDictOk ch ∧ chKeysOk ch

theorem lsSpeakers_ok_char (root : String) (sps : List LSSpeaker) :
    ∀ st st' : BuildAcc, lsSpeakers root sps st = .ok st' →
    st'.entries = st.entries ++ spsDelta root sps ∧
    (∀ p, st.fs p = true → st'.fs p = true) ∧
    spsTargetsOk root sps st'.fs ∧
    spsOk sps := by
  induction sps with
  | nil =>
    intro st st' h
    simp only [lsSpeakers] at h
    cases h
    simp [spsDelta, spsTargetsOk, spsOk]
  | cons sp rest ih =>
    intro st st' h
    simp only [lsSpeakers] at h
    cases hch : lsChapters root sp.speaker_id sp.chapters st with
    | error e => rw [hch] at h; cases h
    | ok st1 =>
      rw [hch] at h
      obtain ⟨f1, f2, f3, f4⟩ := lsChapters_ok_char root sp.speaker_id sp.chapters st st1 hch
      obtain ⟨g1, g2, g3, g4⟩ := ih st1 st' h
      refine ⟨?_, ?_, ?_, ?_⟩
      · rw [g1, f1]
        simp [spsDelta]
      · intro p hp
        exact g2 p (f2 p hp)
      · intro s hs
        rcases List.mem_cons.mp hs with rfl | hsr
        · intro c hc f hf hflac
          exact g2 _ (f3 c hc f hf hflac)
        · exact g3 s hsr
      · intro s hs
        rcases List.mem_cons.mp hs with rfl | hsr
        · exact f4
        · exact g4 s hsr

theorem lsSpeakers_stable (root : String) (sps : List LSSpeaker) :
    ∀ (es : List Entry) (cs : List String) (fs : String → Bool),
    spsOk sps →
    spsTargetsOk root sps fs →
    lsSpeakers root sps ⟨es, cs, fs⟩ = .ok ⟨es ++ spsDelta root sps, cs, fs⟩ := by
  induction sps with
  | nil => intro es cs fs _ _; simp [lsSpeakers, spsDelta]
  | cons sp rest ih =>
    intro es cs fs hok htg
    have hstable := lsChapters_stable root sp.speaker_id sp.chapters es cs fs
      (hok sp (List.mem_cons_self sp rest)) (htg sp (List.mem_cons_self sp rest))
    rw [show lsSpeakers root (sp :: rest) ⟨es, cs, fs⟩ =
          lsSpeakers root rest ⟨es ++ chsDelta root sp.speaker_id sp.chapters, cs, fs⟩ by
        simp [lsSpeakers, hstable]]
    rw [ih _ cs fs (fun s hs => hok s (List.mem_cons_of_mem _ hs))
          (fun s hs => htg s (List.mem_cons_of_mem _ hs))]
    simp [spsDelta]

theorem lsSpeakers_ok_exists (root : String) (sps : List LSSpeaker) :
    ∀ st : BuildAcc, spsOk sps →
    ∃ st', lsSpeakers root sps st = .ok st' := by
  induction sps with
  | nil => intro st _; exact ⟨st, by simp [lsSpeakers]⟩
  | cons sp rest ih =>
    intro st hok
    obtain ⟨st1, hst1⟩ := lsChapters_ok_exists root sp.speaker_id sp.chapters st
      (hok sp (List.mem_cons_self sp rest))
    obtain ⟨st2, hst2⟩ := ih st1 (fun s hs => hok s (List.mem_cons_of_mem _ hs))
    exact ⟨st2, by simp [lsSpeakers, hst1, hst2]⟩

theorem lsSpeakers_missing (root : String) (sps : List LSSpeaker) :
    ∀ st : BuildAcc,
    (∀ sp ∈ sps, ∀ ch ∈ sp.chapters, chDictOk ch) →
    (∃ sp ∈ sps, ∃ ch ∈ sp.chapters, chMissing ch) →
    lsSpeakers root sps st = .error .keyError := by
  induction sps with
  | nil => intro st _ h; simp at h
  | cons sp rest ih =>
    intro st hdict hmiss
    by_cases hm : ∃ ch ∈ sp.chapters, chMissing ch
    · have herr := lsChapters_missing root sp.speaker_id sp.chapters st
        (hdict sp (List.mem_cons_self sp rest)) hm
      simp [lsSpeakers, herr]
    · have hkeys : ∀ ch ∈ sp.chapters, chDictOk ch ∧ chKeysOk ch := by
        intro ch hch
        refine ⟨hdict sp (List.mem_cons_self sp rest) ch hch, ?_⟩
        intro tr htr f hf hflac
        cases hkey : dictGet tr (flacKey f) with
        | none => exact absurd ⟨ch, hch, tr, htr, f, hf, hflac, hkey⟩ hm
        | some t => rfl
      obtain ⟨st1, hst1⟩ := lsChapters_ok_exists root sp.speaker_id sp.chapters st hkeys
      obtain ⟨s, hs, hsm⟩ := hmiss
      rcases List.mem_cons.mp hs with rfl | hsr
      · exact absurd hsm hm
      · rw [show lsSpeakers root (sp :: rest) st = lsSpeakers root rest st1 by
            simp [lsSpeakers, hst1]]
        exact ih st1 (fun s hs => hdict s (List.mem_cons_of_mem _ hs)) ⟨s, hsr, hsm⟩

theorem spsDelta_length (root : String) (sps : List LSSpeaker) :
    spsOk sps →
    (spsDelta root sps).length = spsFlacCount sps := by
  induction sps with
  | nil => intro _; simp [spsDelta, spsFlacCount]
  | cons sp rest ih =>
    intro hok
    simp only [spsDelta, List.length_append]
    rw [chsDelta_length root sp.speaker_id sp.chapters (hok sp (List.mem_cons_self sp rest))]
    rw [ih (fun s hs => hok s (List.mem_cons_of_mem _ hs))]
    simp [spsFlacCount]

theorem strData_append (a b : String) : (a ++ b).data = a.data ++ b.data := by
  cases a; cases b; rfl

theorem str_mk_data (s : String) : (⟨s.data⟩ : String) = s := rfl

theorem pyEndsWith_append (a b : String) : pyEndsWith (a ++ b) b = true := by
  unfold pyEndsWith
  rw [strData_append]
  simp [List.isSuffixOf]

theorem readlinesAux_no_newline (l : List Char) :
    ∀ acc : List Char, Char.ofNat 10 ∉ l →
    readlinesAux (l ++ [Char.ofNat 10]) acc = [acc.reverse ++ l ++ [Char.ofNat 10]] := by
  induction l with
  | nil =>
    intro acc _
    simp [readlinesAux]
  | cons c rest ih =>
    intro acc h
    have hc : ¬ c = Char.ofNat 10 := fun hc => h (hc ▸ List.mem_cons_self c rest)
    have hrest : Char.ofNat 10 ∉ rest := fun hr => h (List.mem_cons_of_mem c hr)
    rw [show (c :: rest) ++ [Char.ofNat 10] = c :: (rest ++ [Char.ofNat 10]) from rfl]
    rw [show readlinesAux (c :: (rest ++ [Char.ofNat 10])) acc =
          readlinesAux (rest ++ [Char.ofNat 10]) (c :: acc) by
        simp [readlinesAux, hc]]
    rw [ih (c :: acc) hrest]
    simp

theorem pyReadlines_single (s : String) (h : Char.ofNat 10 ∉ s.data) :
    pyReadlines (s ++ "\n") = [s ++ "\n"] := by
  unfold pyReadlines
  rw [strData_append]
  rw [show ("\n" : String).data = [Char.ofNat 10] from rfl]
  rw [readlinesAux_no_newline s.data [] h]
  simp only [List.reverse_nil, List.nil_append, List.map_cons, List.map_nil]
  rw [show ((⟨s.data ++ [Char.ofNat 10]⟩ : String) : String) = s ++ "\n" from rfl]

theorem splitOnce_no_space (id : List Char) :
    ∀ rest : List Char, ' ' ∉ id →
    splitOnce (id ++ ' ' :: rest) = some (id, rest) := by
  induction id with
  | nil =>
    intro rest _
    simp [splitOnce]
  | cons c cs ih =>
    intro rest h
    have hc : ¬ c = ' ' := fun hc => h (hc ▸ List.mem_cons_self c cs)
    have hcs : ' ' ∉ cs := fun hr => h (List.mem_cons_of_mem c hr)
    rw [show (c :: cs) ++ ' ' :: rest = c :: (cs ++ ' ' :: rest) from rfl]
    rw [show splitOnce (c :: (cs ++ ' ' :: rest)) =
          (splitOnce (cs ++ ' ' :: rest)).map (fun p => (c :: p.1, p.2)) by
        simp [splitOnce, hc]]
    rw [ih rest hcs]
    rfl

theorem pySplit1_first_space (id rest : String) (h : ' ' ∉ id.data) :
    pySplit1 (id ++ " " ++ rest) = [id, rest] := by
  unfold pySplit1
  rw [strData_append, strData_append]
  rw [show (" " : String).data = [' '] from rfl]
  rw [show (id.data ++ [' ']) ++ rest.data = id.data ++ ' ' :: rest.data by simp]
  rw [splitOnce_no_space id.data rest.data h]

theorem chTranscripts_single (chid id text : String) (files : List String)
    (hid_sp : ' ' ∉ id.data) (hid_nl : Char.ofNat 10 ∉ id.data)
    (htext_nl : Char.ofNat 10 ∉ text.data) :
    chTranscripts ⟨chid, id ++ " " ++ text ++ "\n", files⟩ = .ok [(id, text ++ "\n")] := by
  unfold chTranscripts
  simp only []
  rw [show id ++ " " ++ text ++ "\n" = (id ++ " " ++ text) ++ "\n" from rfl]
  rw [pyReadlines_single (id ++ " " ++ text) (by
    rw [strData_append, strData_append]
    intro hmem
    rcases List.mem_append.mp hmem with h1 | h2
    · rcases List.mem_append.mp h1 with h3 | h4
      · exact hid_nl h3
      · rw [show (" " : String).data = [' '] from rfl] at h4
        simp at h4
    · exact htext_nl h2)]
  rw [show (id ++ " " ++ text) ++ "\n" = id ++ " " ++ (text ++ "\n") by
    simp [String.append_assoc]]
  rw [List.map_cons, List.map_nil, pySplit1_first_space id (text ++ "\n") hid_sp]
  rfl

theorem strLength_eq_zero_iff (s : String) : s.length = 0 ↔ s = "" := by
  constructor
  · intro h
    cases s with
    | mk data =>
      have hd : data = [] := List.length_eq_zero.mp h
      simp [hd]
  · intro h; simp [h]

theorem pyLower_length (s : String) : (pyLower s).length = s.length := by
  show (s.data.map Char.toLower).length = s.data.length
  exact List.length_map _ _

theorem pyIndex_nat_ok (l : List Entry) (n : Nat) (h : n < l.length) (x : Entry)
    (hx : l.get? n = some x) : pyIndex l (n : Int) = .ok x := by
  unfold pyIndex
  rw [dif_pos ⟨by omega, by omega⟩]
  rw [List.get?_eq_get h] at hx
  injection hx with hx
  rw [← hx]
  simp only [Int.toNat_natCast]

/-- C1: the spec requires each `annotations.csv` row with `language == "EN"`
and non-empty text to contribute exactly one catalog entry, and calls the
source's double append a duplication bug.  Evaluating the embedded
constructor at such a row shows the code appends the accepted row twice
(once directly, once via the locally built `row` tuple), while empty-text
and non-EN rows contribute nothing. -/
theorem custom_builder_duplicates_accepted_rows :
    (buildCustom "root"
        [⟨"a.wav", "", "EN"⟩, ⟨"b.wav", "bonjour", "FR"⟩, ⟨"c.wav", "hi", "EN"⟩]
        (fun _ => true)).entries =
      [("root/c.wav", "hi"), ("root/c.wav", "hi")] := by decide

/-- C2 counterexample: the claim says a row is added iff `up_votes >= 2` and
`down_votes == 0` and its text is non-empty.  A row whose `down_votes` field
parses to `-1` is added by the code (the source only tests `down_votes > 0`)
although `down_votes ≠ 0`, refuting the stated equivalence. -/
theorem cv_filter_negative_down_votes_cex :
    (buildCV "root" [⟨"hi", 2, -1, "a.mp3"⟩] (fun _ => true)).entries =
      [("root/a.wav", "hi")] ∧ ¬((-1 : Int) = 0) := by decide

/-- C2 amended: a `cv-valid-test.csv` row is added to the catalog iff
`up_votes >= 2`, `down_votes <= 0` and its text is non-empty (for the
non-negative vote counts the CSV format produces, `down_votes <= 0` is
`down_votes == 0`); the catalog consists exactly of the accepted rows in
order, each transcript being the row's text lower-cased. -/
theorem cv_filter_characterization (root : String) (rows : List CVRow) (fs : String → Bool) :
    (buildCV root rows fs).entries = (rows.filter cvAccept).map (cvEntry root) ∧
    ∀ r : CVRow, 0 ≤ r.down_votes →
      (cvAccept r = true ↔ 2 ≤ r.up_votes ∧ r.down_votes = 0 ∧ r.text ≠ "") := by
  constructor
  · simpa [buildCV] using cv_foldl_entries root rows ⟨[], [], fs⟩
  · intro r hdown
    have hlen : ((pyLower r.text).length = 0) ↔ r.text = "" := by
      rw [pyLower_length, strLength_eq_zero_iff]
    rw [cvAccept_iff]
    unfold cvReject
    push_neg
    simp only [ne_eq]
    rw [hlen]
    constructor
    · rintro ⟨h1, h2, h3⟩; exact ⟨h1, by omega, h3⟩
    · rintro ⟨h1, h2, h3⟩; exact ⟨h1, by omega, h3⟩

/-- C2 witness: the amended characterization evaluated at a concrete
accepted row with mixed-case text. -/
theorem cv_filter_characterization_witness :
    (buildCV "root" [⟨"Hi", 2, 0, "a.mp3"⟩] (fun _ => false)).entries =
      ([(⟨"Hi", 2, 0, "a.mp3"⟩ : CVRow)].filter cvAccept).map (cvEntry "root") ∧
    (cvAccept ⟨"Hi", 2, 0, "a.mp3"⟩ = true ↔
      2 ≤ (2 : Int) ∧ (0 : Int) = 0 ∧ ("Hi" : String) ≠ "") :=
  ⟨(cv_filter_characterization "root" [⟨"Hi", 2, 0, "a.mp3"⟩] (fun _ => false)).1,
   (cv_filter_characterization "root" [⟨"Hi", 2, 0, "a.mp3"⟩] (fun _ => false)).2
     ⟨"Hi", 2, 0, "a.mp3"⟩ (by decide)⟩

/-- C3 counterexample: the claim says every index outside `[0, size())`
fails with an out-of-range error, but Python list indexing accepts negative
indices: on a one-entry catalog, `get(-1)` returns the entry. -/
theorem get_negative_index_cex :
    (DS.get ⟨.custom, [("a.wav", "hi")]⟩ (-1)).1 = .ok ("a.wav", "hi") ∧
    ¬(0 ≤ (-1 : Int)) := by decide

/-- C3 amended: `get(index)` fails with `IndexError` exactly when
`index < -size()` or `index >= size()`; every index in `[0, size())` returns
the catalog entry at that position (negative indices in `[-size(), 0)` alias
from the end, per Python list semantics). -/
theorem get_range_behavior (d : DS) (i : Int) :
    ((DS.get d i).1 = .error .indexError ↔
      (i < -(d.data.length : Int) ∨ (d.data.length : Int) ≤ i)) ∧
    (0 ≤ i → i < (d.data.length : Int) →
      ∀ x, d.data.get? i.toNat = some x → (DS.get d i).1 = .ok x) ∧
    (-(d.data.length : Int) ≤ i → i < 0 →
      ∀ x, d.data.get? (i + (d.data.length : Int)).toNat = some x →
        (DS.get d i).1 = .ok x) := by
  refine ⟨⟨?_, ?_⟩, ?_, ?_⟩
  · intro herr
    by_cases h1 : 0 ≤ i ∧ i < (d.data.length : Int)
    · rw [show (DS.get d i).1 = pyIndex d.data i from rfl] at herr
      unfold pyIndex at herr
      rw [dif_pos h1] at herr
      cases herr
    · by_cases h2 : -(d.data.length : Int) ≤ i ∧ i < 0
      · rw [show (DS.get d i).1 = pyIndex d.data i from rfl] at herr
        unfold pyIndex at herr
        rw [dif_neg h1, dif_pos h2] at herr
        cases herr
      · omega
  · intro h
    show pyIndex d.data i = .error .indexError
    unfold pyIndex
    rw [dif_neg (by omega), dif_neg (by omega)]
  · intro h0 hl x hx
    show pyIndex d.data i = .ok x
    have hn : i = ((i.toNat : Nat) : Int) := by omega
    rw [hn]
    exact pyIndex_nat_ok d.data i.toNat (by omega) x hx
  · intro hge hlt x hx
    show pyIndex d.data i = .ok x
    unfold pyIndex
    rw [dif_neg (by omega), dif_pos ⟨hge, hlt⟩]
    have hb : (i + (d.data.length : Int)).toNat < d.data.length := by omega
    rw [List.get?_eq_get hb] at hx
    injection hx with hx
    rw [← hx]

/-- C3 witness: the amended range behavior at a concrete two-entry catalog:
index 5 errors (and the iff confirms it is out of range), index 1 returns
the second entry, and index -1 aliases to the last entry. -/
theorem get_range_behavior_witness :
    (DS.get ⟨.commonvoice, [("a", "b"), ("c", "d")]⟩ 5).1 = .error .indexError ∧
    (DS.get ⟨.commonvoice, [("a", "b"), ("c", "d")]⟩ 1).1 = .ok ("c", "d") ∧
    (DS.get ⟨.commonvoice, [("a", "b"), ("c", "d")]⟩ (-1)).1 = .ok ("c", "d") :=
  ⟨(get_range_behavior ⟨.commonvoice, [("a", "b"), ("c", "d")]⟩ 5).1.mpr (by decide),
   (get_range_behavior ⟨.commonvoice, [("a", "b"), ("c", "d")]⟩ 1).2.1 (by decide) (by decide)
     ("c", "d") (by decide),
   (get_range_behavior ⟨.commonvoice, [("a", "b"), ("c", "d")]⟩ (-1)).2.2 (by decide) (by decide)
     ("c", "d") (by decide)⟩

/-- C5: the factory maps each recognized type string to the class with the
expected fixed label, and fails on any other string with a `ValueError`
whose message cites the unrecognized type. -/
theorem create_factory (t : String) :
    (create "commonvoice" = .ok .commonvoice ∧ dsLabel .commonvoice = "Common Voice Dataset") ∧
    (create "librispeech" = .ok .librispeech ∧ dsLabel .librispeech = "LibriSpeech Dataset") ∧
    (create "custom" = .ok .custom ∧ dsLabel .custom = "Custom Dataset") ∧
    (t ≠ "commonvoice" → t ≠ "librispeech" → t ≠ "custom" →
      create t = .error ("cannot create Dataset of type \x27" ++ t ++ "\x27") ∧
      ∃ pre suf : String,
        "cannot create Dataset of type \x27" ++ t ++ "\x27" = pre ++ t ++ suf) := by
  refine ⟨⟨rfl, rfl⟩, ⟨rfl, rfl⟩, ⟨rfl, rfl⟩, ?_⟩
  intro h1 h2 h3
  refine ⟨?_, ⟨"cannot create Dataset of type \x27", "\x27", rfl⟩⟩
  unfold create
  rw [if_neg h1, if_neg h2, if_neg h3]

/-- C5 witness: the factory error path at the concrete unrecognized type
string "foo". -/
theorem create_factory_witness :
    create "foo" = .error ("cannot create Dataset of type \x27" ++ "foo" ++ "\x27") ∧
    ∃ pre suf : String,
      "cannot create Dataset of type \x27" ++ "foo" ++ "\x27" = pre ++ "foo" ++ suf :=
  (create_factory "foo").2.2.2 (by decide) (by decide) (by decide)

/-- C8 counterexample: the claim says only the trailing ".mp3" extension is
replaced and earlier occurrences of ".mp3" are unchanged, but the source
uses Python `str.replace`, which replaces every occurrence: for the filename
"x.mp3.mp3" the catalog path is "root/x.wav.wav", not "root/x.mp3.wav". -/
theorem cv_wav_path_replace_all_cex :
    (buildCV "root" [⟨"hi", 2, 0, "x.mp3.mp3"⟩] (fun _ => true)).entries =
      [("root/x.wav.wav", "hi")] ∧
    ("root/x.wav.wav" : String) ≠ "root/x.mp3.wav" := by decide

/-- C8 amended: for every accepted row the catalog audio path is the joined
path `root/filename` with every occurrence of ".mp3" replaced by ".wav". -/
theorem cv_wav_paths (root : String) (rows : List CVRow) (fs : String → Bool) :
    (buildCV root rows fs).entries.map Prod.fst =
      (rows.filter cvAccept).map
        (fun r => pyReplace (pathJoin root r.filename) ".mp3" ".wav") := by
  have h := cv_foldl_entries root rows ⟨[], [], fs⟩
  unfold buildCV
  rw [h]
  simp only [List.nil_append, List.map_map]
  rfl

/-- C9: every accessor is read-only: any sequence of `size`, `get`,
`size_seconds`, `size_hours`, `__str__` and `all_data` calls leaves the
dataset object (and hence its catalog) unchanged, so `size()` and `get(i)`
are stable across calls. -/
theorem catalog_read_only (samples : String → Nat) (d : DS) (ops : List AccessorOp) :
    runOps samples ops d = d ∧
    (DS.size (runOps samples ops d)).1 = (DS.size d).1 ∧
    (∀ i : Int, (DS.get (runOps samples ops d) i).1 = (DS.get d i).1) := by
  have h : ∀ (ops : List AccessorOp) (d : DS), runOps samples ops d = d := by
    intro ops
    induction ops with
    | nil => intro d; rfl
    | cons op rest ih =>
      intro d
      have hop : applyOp samples d op = d := by cases op <;> rfl
      show runOps samples rest (applyOp samples d op) = d
      rw [hop]
      exact ih d
  exact ⟨h ops d, by rw [h ops d], fun i => by rw [h ops d]⟩

/-- C10: `all_data()` raises `NotImplementedError` on the Common Voice and
LibriSpeech variants (they do not override the base method); the Custom
variant returns the full catalog, the same sequence exposed via
`size()`/`get()`. -/
theorem all_data_behavior (d : DS) :
    ((d.kind = .commonvoice ∨ d.kind = .librispeech) →
      d.allData = .error .notImplementedError) ∧
    (d.kind = .custom →
      d.allData = .ok d.data ∧
      d.data.length = (DS.size d).1 ∧
      (∀ (n : Nat), n < d.data.length → ∀ x, d.data.get? n = some x →
        (DS.get d (n : Int)).1 = .ok x)) := by
  constructor
  · rintro (h | h) <;> (unfold DS.allData; rw [h])
  · intro h
    refine ⟨by unfold DS.allData; rw [h], rfl, ?_⟩
    intro n hn x hx
    show pyIndex d.data (n : Int) = .ok x
    exact pyIndex_nat_ok d.data n hn x hx

/-- C10 witness: `all_data` evaluated on a Common Voice object and on a
Custom object with a one-entry catalog. -/
theorem all_data_behavior_witness :
    DS.allData ⟨.commonvoice, []⟩ = .error .notImplementedError ∧
    DS.allData ⟨.custom, [("a.wav", "hi")]⟩ = .ok [("a.wav", "hi")] :=
  ⟨(all_data_behavior ⟨.commonvoice, []⟩).1 (Or.inl rfl),
   ((all_data_behavior ⟨.custom, [("a.wav", "hi")]⟩).2 rfl).1⟩

/-- C4: constructing the same dataset a second time, over the filesystem
state in which every target WAV file already exists (as left by the first
construction), performs no conversion and produces a catalog identical to
the first run, for all three builders. -/
theorem rebuild_idempotent (root : String) (rows : List CVRow) (crows : List CustomRow)
    (sps : List LSSpeaker) (fs : String → Bool) :
    buildCV root rows (buildCV root rows fs).fs =
      ⟨(buildCV root rows fs).entries, [], (buildCV root rows fs).fs⟩ ∧
    buildCustom root crows (buildCustom root crows fs).fs =
      ⟨(buildCustom root crows fs).entries, [], (buildCustom root crows fs).fs⟩ ∧
    (∀ st1 : BuildAcc, buildLS root sps fs = .ok st1 →
      buildLS root sps st1.fs = .ok ⟨st1.entries, [], st1.fs⟩) := by
  refine ⟨?_, ?_, ?_⟩
  · have hpost : ∀ r ∈ rows, ¬ cvReject r →
        (buildCV root rows fs).fs (cvWavPath root r) = true :=
      fun r hr hrr => cv_foldl_post root rows ⟨[], [], fs⟩ r hr hrr
    show rows.foldl (cvStep root) ⟨[], [], (buildCV root rows fs).fs⟩ = _
    rw [cv_foldl_stable root rows [] [] (buildCV root rows fs).fs hpost]
    rw [show (buildCV root rows fs).entries = (rows.filter cvAccept).map (cvEntry root) by
        simpa [buildCV] using cv_foldl_entries root rows ⟨[], [], fs⟩]
    simp
  · have hpost : ∀ d ∈ crows, customAccept d →
        (buildCustom root crows fs).fs (pathJoin root d.file) = true :=
      fun d hd hda => custom_foldl_post root crows ⟨[], [], fs⟩ d hd hda
    show crows.foldl (customStep root) ⟨[], [], (buildCustom root crows fs).fs⟩ = _
    rw [custom_foldl_stable root crows [] [] (buildCustom root crows fs).fs hpost]
    rw [show (buildCustom root crows fs).entries = customDelta root crows by
        simpa [buildCustom] using custom_foldl_entries root crows ⟨[], [], fs⟩]
    simp
  · intro st1 h1
    obtain ⟨e1, hmono, htg, hok⟩ := lsSpeakers_ok_char root sps ⟨[], [], fs⟩ st1 h1
    show lsSpeakers root sps ⟨[], [], st1.fs⟩ = _
    rw [lsSpeakers_stable root sps [] [] st1.fs hok htg]
    rw [show st1.entries = spsDelta root sps by simpa using e1]
    simp

/-- C4 witness: idempotence evaluated at concrete one-row / one-file
corpora for all three builders, starting from an empty filesystem. -/
theorem rebuild_idempotent_witness :
    buildCV "root" [⟨"hi", 2, 0, "a.mp3"⟩]
        (buildCV "root" [⟨"hi", 2, 0, "a.mp3"⟩] (fun _ => false)).fs =
      ⟨(buildCV "root" [⟨"hi", 2, 0, "a.mp3"⟩] (fun _ => false)).entries, [],
       (buildCV "root" [⟨"hi", 2, 0, "a.mp3"⟩] (fun _ => false)).fs⟩ ∧
    buildCustom "root" [⟨"c.wav", "hi", "EN"⟩]
        (buildCustom "root" [⟨"c.wav", "hi", "EN"⟩] (fun _ => false)).fs =
      ⟨(buildCustom "root" [⟨"c.wav", "hi", "EN"⟩] (fun _ => false)).entries, [],
       (buildCustom "root" [⟨"c.wav", "hi", "EN"⟩] (fun _ => false)).fs⟩ ∧
    buildLS "root" [⟨"19", [⟨"198", "19-198-0000 HI" ++ "\n", ["19-198-0000.flac"]⟩]⟩]
        (fsUpdate (fun _ => false) "root/19/198/19-198-0000.wav") =
      .ok ⟨[("root/19/198/19-198-0000.wav", "HI" ++ "\n")], [],
           fsUpdate (fun _ => false) "root/19/198/19-198-0000.wav"⟩ :=
  ⟨(rebuild_idempotent "root" [⟨"hi", 2, 0, "a.mp3"⟩] [⟨"c.wav", "hi", "EN"⟩] [] (fun _ => false)).1,
   (rebuild_idempotent "root" [⟨"hi", 2, 0, "a.mp3"⟩] [⟨"c.wav", "hi", "EN"⟩] [] (fun _ => false)).2.1,
   (rebuild_idempotent "root" [] []
       [⟨"19", [⟨"198", "19-198-0000 HI" ++ "\n", ["19-198-0000.flac"]⟩]⟩] (fun _ => false)).2.2
     ⟨[("root/19/198/19-198-0000.wav", "HI" ++ "\n")], ["root/19/198/19-198-0000.wav"],
      fsUpdate (fun _ => false) "root/19/198/19-198-0000.wav"⟩ rfl⟩

/-- C6 counterexample: the claim says the stored transcript is the matching
line's text with its trailing newline stripped, but `readlines()` keeps the
newline and nothing strips it: the stored transcript of the line
"19-198-0000 HELLO WORLD\n" is "HELLO WORLD\n", not "HELLO WORLD". -/
theorem ls_transcript_newline_cex :
    (buildLS "root" [⟨"19", [⟨"198", "19-198-0000 HELLO WORLD" ++ "\n", ["19-198-0000.flac"]⟩]⟩]
        (fun _ => true)).map BuildAcc.entries =
      .ok [("root/19/198/19-198-0000.wav", "HELLO WORLD" ++ "\n")] ∧
    ("HELLO WORLD" ++ "\n" : String) ≠ "HELLO WORLD" := by decide

/-- C6 amended: for a chapter directory containing the `.flac` file
`<id>.flac` and a transcript file consisting of the line `<id> <text>`
terminated by a newline, the catalog entry pairs the WAV sibling path with
exactly the rest of the line after the first space INCLUDING its trailing
newline (the newline is not stripped). -/
theorem ls_entry_transcript (root sp chid id text : String) (fs : String → Bool)
    (hid_sp : ' ' ∉ id.data) (hid_nl : Char.ofNat 10 ∉ id.data)
    (htext_nl : Char.ofNat 10 ∉ text.data)
    (hrep1 : pyReplace (id ++ ".flac") ".flac" ".wav" = id ++ ".wav")
    (hrep2 : pyReplace (id ++ ".wav") ".wav" "" = id) :
    (buildLS root [⟨sp, [⟨chid, id ++ " " ++ text ++ "\n", [id ++ ".flac"]⟩]⟩] fs).map
        BuildAcc.entries =
      .ok [(pathJoin (pathJoin (pathJoin root sp) chid) (id ++ ".wav"), text ++ "\n")] := by
  have hget : dictGet [(id, text ++ "\n")] id = some (text ++ "\n") := by
    simp [dictGet]
  have hfiles : lsFiles (pathJoin (pathJoin root sp) chid) [(id, text ++ "\n")]
      [id ++ ".flac"] ⟨[], [], fs⟩ =
      .ok ⟨[(pathJoin (pathJoin (pathJoin root sp) chid) (id ++ ".wav"), text ++ "\n")],
           if fs (pathJoin (pathJoin (pathJoin root sp) chid) (id ++ ".wav")) then []
             else [pathJoin (pathJoin (pathJoin root sp) chid) (id ++ ".wav")],
           if fs (pathJoin (pathJoin (pathJoin root sp) chid) (id ++ ".wav")) then fs
             else fsUpdate fs (pathJoin (pathJoin (pathJoin root sp) chid) (id ++ ".wav"))⟩ := by
    by_cases hfs : fs (pathJoin (pathJoin (pathJoin root sp) chid) (id ++ ".wav")) = true
    · simp [lsFiles, pyEndsWith_append, hrep1, hrep2, hget, hfs]
    · simp only [Bool.not_eq_true] at hfs
      simp [lsFiles, pyEndsWith_append, hrep1, hrep2, hget, hfs]
  have hch : lsChapter root sp ⟨chid, id ++ " " ++ text ++ "\n", [id ++ ".flac"]⟩ ⟨[], [], fs⟩ =
      .ok ⟨[(pathJoin (pathJoin (pathJoin root sp) chid) (id ++ ".wav"), text ++ "\n")],
           if fs (pathJoin (pathJoin (pathJoin root sp) chid) (id ++ ".wav")) then []
             else [pathJoin (pathJoin (pathJoin root sp) chid) (id ++ ".wav")],
           if fs (pathJoin (pathJoin (pathJoin root sp) chid) (id ++ ".wav")) then fs
             else fsUpdate fs (pathJoin (pathJoin (pathJoin root sp) chid) (id ++ ".wav"))⟩ := by
    unfold lsChapter
    rw [chTranscripts_single chid id text [id ++ ".flac"] hid_sp hid_nl htext_nl]
    exact hfiles
  show (lsSpeakers root [⟨sp, [⟨chid, id ++ " " ++ text ++ "\n", [id ++ ".flac"]⟩]⟩]
      ⟨[], [], fs⟩).map BuildAcc.entries = _
  rw [show lsSpeakers root [⟨sp, [⟨chid, id ++ " " ++ text ++ "\n", [id ++ ".flac"]⟩]⟩]
        ⟨[], [], fs⟩ =
      lsChapters root sp [⟨chid, id ++ " " ++ text ++ "\n", [id ++ ".flac"]⟩] ⟨[], [], fs⟩
        >>= fun st1 => lsSpeakers root [] st1 from ?_]
  · rw [show lsChapters root sp [⟨chid, id ++ " " ++ text ++ "\n", [id ++ ".flac"]⟩]
          ⟨[], [], fs⟩ =
        lsChapter root sp ⟨chid, id ++ " " ++ text ++ "\n", [id ++ ".flac"]⟩ ⟨[], [], fs⟩
          >>= fun st1 => lsChapters root sp [] st1 from ?_]
    · rw [hch]
      rfl
    · simp only [lsChapters]
      cases lsChapter root sp ⟨chid, id ++ " " ++ text ++ "\n", [id ++ ".flac"]⟩ ⟨[], [], fs⟩ <;>
        rfl
  · simp only [lsSpeakers]
    cases lsChapters root sp [⟨chid, id ++ " " ++ text ++ "\n", [id ++ ".flac"]⟩] ⟨[], [], fs⟩ <;>
      rfl

/-- C6 witness: the amended statement evaluated at the concrete utterance id
"19-198-0000" with text "HELLO WORLD". -/
theorem ls_entry_transcript_witness :
    (buildLS "root" [⟨"19", [⟨"198", "19-198-0000" ++ " " ++ "HELLO WORLD" ++ "\n",
        ["19-198-0000" ++ ".flac"]⟩]⟩] (fun _ => false)).map BuildAcc.entries =
      .ok [(pathJoin (pathJoin (pathJoin "root" "19") "198") ("19-198-0000" ++ ".wav"),
            "HELLO WORLD" ++ "\n")] :=
  ls_entry_transcript "root" "19" "198" "19-198-0000" "HELLO WORLD" (fun _ => false)
    (by decide) (by decide) (by decide) (by decide) (by decide)

/-- C7: given that every chapter transcript parses into a mapping, the
LibriSpeech construction succeeds with one catalog entry per `.flac` file
when every `.flac` base name is a key of its chapter's mapping, and aborts
with a `KeyError` (producing no dataset object) when some `.flac` base name
is missing from its chapter's mapping. -/
theorem ls_missing_key_fatal (root : String) (sps : List LSSpeaker) (fs : String → Bool)
    (hdict : ∀ sp ∈ sps, ∀ ch ∈ sp.chapters, chDictOk ch) :
    ((∀ sp ∈ sps, ∀ ch ∈ sp.chapters, chKeysOk ch) →
      ∃ st, buildLS root sps fs = .ok st ∧ st.entries.length = spsFlacCount sps) ∧
    ((∃ sp ∈ sps, ∃ ch ∈ sp.chapters, chMissing ch) →
      buildLS root sps fs = .error .keyError) := by
  constructor
  · intro hkeys
    have hok : spsOk sps := fun sp hsp ch hch => ⟨hdict sp hsp ch hch, hkeys sp hsp ch hch⟩
    obtain ⟨st, hst⟩ := lsSpeakers_ok_exists root sps ⟨[], [], fs⟩ hok
    refine ⟨st, hst, ?_⟩
    obtain ⟨e1, _, _, _⟩ := lsSpeakers_ok_char root sps ⟨[], [], fs⟩ st hst
    rw [e1]
    simp [spsDelta_length root sps hok]
  · intro hmiss
    exact lsSpeakers_missing root sps ⟨[], [], fs⟩ hdict hmiss

/-- C7 witness: the success case on a one-chapter tree whose only `.flac`
has a matching key (one entry), and the failure case on a tree whose only
`.flac` base name is absent from the mapping. -/
theorem ls_missing_key_fatal_witness :
    (∃ st, buildLS "root" [⟨"19", [⟨"198", "19-198-0000 HI" ++ "\n", ["19-198-0000.flac"]⟩]⟩]
        (fun _ => false) = .ok st ∧
      st.entries.length =
        spsFlacCount [⟨"19", [⟨"198", "19-198-0000 HI" ++ "\n", ["19-198-0000.flac"]⟩]⟩]) ∧
    buildLS "root" [⟨"19", [⟨"198", "19-198-0000 HI" ++ "\n", ["19-198-9999.flac"]⟩]⟩]
        (fun _ => false) = .error .keyError := by
  constructor
  · refine (ls_missing_key_fatal "root"
      [⟨"19", [⟨"198", "19-198-0000 HI" ++ "\n", ["19-198-0000.flac"]⟩]⟩] (fun _ => false)
      ?_).1 ?_
    · intro sp hsp ch hch
      rw [List.mem_singleton] at hsp
      subst hsp
      rw [show (⟨"19", [⟨"198", "19-198-0000 HI" ++ "\n", ["19-198-0000.flac"]⟩]⟩ :
          LSSpeaker).chapters = [⟨"198", "19-198-0000 HI" ++ "\n", ["19-198-0000.flac"]⟩]
          from rfl, List.mem_singleton] at hch
      subst hch
      exact ⟨[("19-198-0000", "HI" ++ "\n")], by decide⟩
    · intro sp hsp ch hch
      rw [List.mem_singleton] at hsp
      subst hsp
      rw [show (⟨"19", [⟨"198", "19-198-0000 HI" ++ "\n", ["19-198-0000.flac"]⟩]⟩ :
          LSSpeaker).chapters = [⟨"198", "19-198-0000 HI" ++ "\n", ["19-198-0000.flac"]⟩]
          from rfl, List.mem_singleton] at hch
      subst hch
      intro tr htr
      rw [show chTranscripts ⟨"198", "19-198-0000 HI" ++ "\n", ["19-198-0000.flac"]⟩ =
          .ok [("19-198-0000", "HI" ++ "\n")] from by decide] at htr
      injection htr with htr
      subst htr
      intro f hf hflac
      rw [List.mem_singleton] at hf
      subst hf
      decide
  · refine (ls_missing_key_fatal "root"
      [⟨"19", [⟨"198", "19-198-0000 HI" ++ "\n", ["19-198-9999.flac"]⟩]⟩] (fun _ => false)
      ?_).2 ?_
    · intro sp hsp ch hch
      rw [List.mem_singleton] at hsp
      subst hsp
      rw [show (⟨"19", [⟨"198", "19-198-0000 HI" ++ "\n", ["19-198-9999.flac"]⟩]⟩ :
          LSSpeaker).chapters = [⟨"198", "19-198-0000 HI" ++ "\n", ["19-198-9999.flac"]⟩]
          from rfl, List.mem_singleton] at hch
      subst hch
      exact ⟨[("19-198-0000", "HI" ++ "\n")], by decide⟩
    · refine ⟨⟨"19", [⟨"198", "19-198-0000 HI" ++ "\n", ["19-198-9999.flac"]⟩]⟩, by decide,
        ⟨"198", "19-198-0000 HI" ++ "\n", ["19-198-9999.flac"]⟩, by decide,
        [("19-198-0000", "HI" ++ "\n")], by decide,
        "19-198-9999.flac", by decide, by decide, by decide⟩

end SttBench
